import Mathlib

/-!
# IteratingOverCharsInString: four ways to walk over a `std::string`

A shallow embedding of `IteratingOverCharsInString/main.cpp`.

* A `std::string` is a finite list of character units whose length fits in
  `std::string::size_type` (64 bits).
* `std::cout` is the list of characters written so far.
* A by-reference parameter is modelled by state passing: a traversal receives the
  caller's string together with the stream and hands both back.
* Every loop of the source is a step function (test the condition, run the body,
  advance the cursor) driven by `runLoop`, which executes at most `fuel + 1`
  condition tests and at most `fuel` bodies.
* The loop bodies of the source are the per-character action; the loops themselves are
  written once for an arbitrary action, and the four `print...` functions instantiate
  them with the write to `std::cout` found in the source.
-/

namespace IteratingOverCharsInString

/-! ## Data model -/

/-- Number of values of `std::string::size_type` (an unsigned 64-bit integer). -/
def SIZE_MOD : Nat := 18446744073709551616

/-- A `std::string`: its character units, and the fact that `size()` is a `size_type`. -/
structure CppString where
  data : List Char
  size_lt : data.length < SIZE_MOD

namespace CppString

/-- The member `s.size()`. -/
def size (s : CppString) : Nat := s.data.length

/-- The access `s[i]`, as a total lookup: `none` when `i` is not the index of a character. -/
def index (s : CppString) (i : Nat) : Option Char := s.data[i]?

/-- The member `s.cbegin()`: an iterator is the offset of the character it points to. -/
def cbegin (_s : CppString) : Nat := 0

/-- The member `s.cend()`. -/
def cend (s : CppString) : Nat := s.size

/-- The member `s.begin()` on a `const std::string&`. -/
def begin (_s : CppString) : Nat := 0

/-- The member `s.end()` on a `const std::string&`. -/
def end_ (s : CppString) : Nat := s.size

/-- The read `*it` for an iterator into `s`: `none` when `it` points to no character. -/
def deref (s : CppString) (it : Nat) : Option Char := s.data[it]?

end CppString

/-- The characters written to `std::cout` so far, oldest first. -/
abbrev Ostream := List Char

/-- The insertion `out << c` of a single character. -/
def Ostream.put (out : Ostream) (c : Char) : Ostream := out ++ [c]

/-- The insertion `out << "literal"` of a string literal. -/
def Ostream.write (out : Ostream) (str : String) : Ostream := out ++ str.toList

/-- The insertion `out << std::endl`: a newline (the flush does not change what has been written). -/
def Ostream.endl (out : Ostream) : Ostream := out ++ [Char.ofNat 10]

/-- What a traversal can see and change: the string behind the `const std::string&`
parameter, and the state `cout` the per-character action works on. -/
structure State (σ : Type) where
  s : CppString
  cout : σ

/-- The ways a run can stop without returning. -/
inductive Fault (ε : Type) where
  /-- the per-character action failed with `e` -/
  | thrown (e : ε)
  /-- a character was read at a position that holds none -/
  | outOfRange
  /-- the step budget was used up before the loop condition became false -/
  | outOfFuel

/-- Outcome of one pass through a loop: go round again, leave the loop, or stop. -/
inductive Step (ε κ ρ : Type) where
  | next (c : κ)
  | halt (r : ρ)
  | fail (f : Fault ε)

/-- Runs a loop given by its step function; at most `fuel` bodies are executed. -/
def runLoop {ε κ ρ : Type} (step : κ → Step ε κ ρ) : Nat → κ → Except (Fault ε) ρ
  | 0, c =>
    match step c with
    | .halt r => .ok r
    | .fail f => .error f
    | .next _ => .error .outOfFuel
  | fuel + 1, c =>
    match step c with
    | .halt r => .ok r
    | .fail f => .error f
    | .next c' => runLoop step fuel c'

/-- The cursor after `n` complete passes through the loop, while it is still running. -/
def cursorAfter {ε κ ρ : Type} (step : κ → Step ε κ ρ) : Nat → κ → Option κ
  | 0, c => some c
  | n + 1, c =>
    match step c with
    | .next c' => cursorAfter step n c'
    | _ => none

/-! ## The four loops, for an arbitrary per-character action -/

/-- Loop variables of `for (size_type i = 0; i < s.size(); i++)`. -/
structure IndexCursor (σ : Type) where
  i : Nat
  st : State σ

/-- One pass of `for (size_type i = 0; i < s.size(); i++) { act(s[i]); }`. -/
def simpleForLoopStep {ε σ : Type} (act : Char → σ → Except ε σ) (c : IndexCursor σ) :
    Step ε (IndexCursor σ) (State σ) :=
  if c.i < c.st.s.size then
    match c.st.s.index c.i with
    | none => .fail .outOfRange
    | some ch =>
      match act ch c.st.cout with
      | .error e => .fail (.thrown e)
      | .ok cout' => .next ⟨(c.i + 1) % SIZE_MOD, ⟨c.st.s, cout'⟩⟩
  else .halt c.st

/-- The index loop of `printSimpleForLoop`. -/
def simpleForLoop {ε σ : Type} (act : Char → σ → Except ε σ) (fuel : Nat) (st : State σ) :
    Except (Fault ε) (State σ) :=
  runLoop (simpleForLoopStep act) fuel ⟨0, st⟩

/-- Loop variables of `for (auto it = s.cbegin(); it != s.cend(); ++it)`. -/
structure IterCursor (σ : Type) where
  it : Nat
  st : State σ

/-- One pass of `for (auto it = s.cbegin(); it != s.cend(); ++it) { act(*it); }`. -/
def usingIteratorStep {ε σ : Type} (act : Char → σ → Except ε σ) (c : IterCursor σ) :
    Step ε (IterCursor σ) (State σ) :=
  if c.it != c.st.s.cend then
    match c.st.s.deref c.it with
    | none => .fail .outOfRange
    | some ch =>
      match act ch c.st.cout with
      | .error e => .fail (.thrown e)
      | .ok cout' => .next ⟨c.it + 1, ⟨c.st.s, cout'⟩⟩
  else .halt c.st

/-- The iterator loop of `printUsingIterator`. -/
def usingIterator {ε σ : Type} (act : Char → σ → Except ε σ) (fuel : Nat) (st : State σ) :
    Except (Fault ε) (State σ) :=
  runLoop (usingIteratorStep act) fuel ⟨st.s.cbegin, st⟩

/-- Loop variables of a range-based `for`: the two iterators taken once before the loop
(`__begin` and `__end` in the language definition), and the state. -/
structure RangeCursor (σ : Type) where
  first : Nat
  last : Nat
  st : State σ

/-- One pass of `for (char const& c : s) { act(c); }`, which the language defines as
`for (; __begin != __end; ++__begin) { char const& c = *__begin; act(c); }`. -/
def rangeBasedForLoopStep {ε σ : Type} (act : Char → σ → Except ε σ) (c : RangeCursor σ) :
    Step ε (RangeCursor σ) (State σ) :=
  if c.first != c.last then
    match c.st.s.deref c.first with
    | none => .fail .outOfRange
    | some ch =>
      match act ch c.st.cout with
      | .error e => .fail (.thrown e)
      | .ok cout' => .next ⟨c.first + 1, c.last, ⟨c.st.s, cout'⟩⟩
  else .halt c.st

/-- The range-based loop of `printRangeBasedForLoop`. -/
def rangeBasedForLoop {ε σ : Type} (act : Char → σ → Except ε σ) (fuel : Nat) (st : State σ) :
    Except (Fault ε) (State σ) :=
  runLoop (rangeBasedForLoopStep act) fuel ⟨st.s.begin, st.s.end_, st⟩

/-- One pass of the loop inside `std::for_each(first, last, f)`, which the standard library
defines as `for (; first != last; ++first) f(*first);`. -/
def for_each_step {ε σ : Type} (f : Char → σ → Except ε σ) (c : RangeCursor σ) :
    Step ε (RangeCursor σ) (State σ) :=
  if c.first != c.last then
    match c.st.s.deref c.first with
    | none => .fail .outOfRange
    | some ch =>
      match f ch c.st.cout with
      | .error e => .fail (.thrown e)
      | .ok cout' => .next ⟨c.first + 1, c.last, ⟨c.st.s, cout'⟩⟩
  else .halt c.st

/-- The algorithm `std::for_each(first, last, f)` over iterators into the string of `st`. -/
def for_each {ε σ : Type} (first last : Nat) (f : Char → σ → Except ε σ) (fuel : Nat)
    (st : State σ) : Except (Fault ε) (State σ) :=
  runLoop (for_each_step f) fuel ⟨first, last, st⟩

/-- The call `std::for_each(s.begin(), s.end(), f)` of `printUsingForEachAlgorithm`. -/
def usingForEachAlgorithm {ε σ : Type} (f : Char → σ → Except ε σ) (fuel : Nat)
    (st : State σ) : Except (Fault ε) (State σ) :=
  for_each st.s.begin st.s.end_ f fuel st

/-! ## The program -/

/-- The function `void fn(char const& c) { std::cout << c << ' '; }`; writing to `std::cout` does not
throw, so the action has no failure (`Empty`). -/
def fn (c : Char) (out : Ostream) : Except Empty Ostream :=
  .ok ((out.put c).put ' ')

/-- The function `void printSimpleForLoop(const std::string& s)`. -/
def printSimpleForLoop (fuel : Nat) (st : State Ostream) : Except (Fault Empty) (State Ostream) :=
  simpleForLoop (fun c out => .ok ((out.put c).put ' ')) fuel st

/-- The function `void printRangeBasedForLoop(const std::string& s)`. -/
def printRangeBasedForLoop (fuel : Nat) (st : State Ostream) :
    Except (Fault Empty) (State Ostream) :=
  rangeBasedForLoop (fun c out => .ok ((out.put c).put ' ')) fuel st

/-- The function `void printUsingIterator(const std::string& s)`. -/
def printUsingIterator (fuel : Nat) (st : State Ostream) : Except (Fault Empty) (State Ostream) :=
  usingIterator (fun c out => .ok ((out.put c).put ' ')) fuel st

/-- The function `void printUsingForEachAlgorithm(const std::string& s)`. -/
def printUsingForEachAlgorithm (fuel : Nat) (st : State Ostream) :
    Except (Fault Empty) (State Ostream) :=
  usingForEachAlgorithm fn fuel st

/-- The local `std::string s("hello")` of `main`. -/
def hello : CppString := ⟨"hello".toList, by decide⟩

/-- The function `int main()`: the value returned and everything written to `std::cout`, which is empty
when the program starts. Each of the four calls may run `fuel` loop bodies. -/
def main (fuel : Nat) : Except (Fault Empty) (Int × Ostream) := do
  let s := hello
  let out : Ostream := []
  let out := (out.write "************************").endl
  let st ← printSimpleForLoop fuel ⟨s, out⟩
  let out := (st.cout.write "\n************************").endl
  let st ← printRangeBasedForLoop fuel ⟨st.s, out⟩
  let out := (st.cout.write "\n************************").endl
  let st ← printUsingIterator fuel ⟨st.s, out⟩
  let out := (st.cout.write "\n************************").endl
  let st ← printUsingForEachAlgorithm fuel ⟨st.s, out⟩
  let out := (st.cout.write "\n************************").endl
  return (0, out)

/-! ## Naming the four mechanisms, and observing the action -/

/-- The four traversal mechanisms of the program. -/
inductive Mechanism where
  | simpleForLoop
  | rangeBasedForLoop
  | usingIterator
  | usingForEachAlgorithm

/-- The loop of mechanism `m`, for an arbitrary per-character action. -/
def traverse {ε σ : Type} (m : Mechanism) (act : Char → σ → Except ε σ) (fuel : Nat)
    (st : State σ) : Except (Fault ε) (State σ) :=
  match m with
  | .simpleForLoop => IteratingOverCharsInString.simpleForLoop act fuel st
  | .rangeBasedForLoop => IteratingOverCharsInString.rangeBasedForLoop act fuel st
  | .usingIterator => IteratingOverCharsInString.usingIterator act fuel st
  | .usingForEachAlgorithm => IteratingOverCharsInString.usingForEachAlgorithm act fuel st

/-- The `print...` function of the program that uses mechanism `m`. -/
def print (m : Mechanism) (fuel : Nat) (st : State Ostream) :
    Except (Fault Empty) (State Ostream) :=
  match m with
  | .simpleForLoop => printSimpleForLoop fuel st
  | .rangeBasedForLoop => printRangeBasedForLoop fuel st
  | .usingIterator => printUsingIterator fuel st
  | .usingForEachAlgorithm => printUsingForEachAlgorithm fuel st

/-- An action together with a log of the characters it was called with, in call order. -/
def traced {ε σ : Type} (act : Char → σ → Except ε σ) (c : Char) (x : List Char × σ) :
    Except ε (List Char × σ) :=
  match act c x.2 with
  | .error e => .error e
  | .ok y => .ok (x.1 ++ [c], y)

/-- An action together with a count of the calls made to it. -/
def counted {ε σ : Type} (act : Char → σ → Except ε σ) (c : Char) (x : Nat × σ) :
    Except ε (Nat × σ) :=
  match act c x.2 with
  | .error e => .error e
  | .ok y => .ok (x.1 + 1, y)

/-- The result of a traversal of `T` whose action calls produced `r`: the string comes back
as it was, and an error of the action comes back as that same error. -/
def returning {ε σ : Type} (T : CppString) (r : Except ε σ) : Except (Fault ε) (State σ) :=
  match r with
  | .error e => .error (.thrown e)
  | .ok cout' => .ok ⟨T, cout'⟩

/-- Sample input: the empty string `""`. -/
def emptyText : CppString := ⟨[], by decide⟩

/-- Sample input: the one-character string `"a"`. -/
def textA : CppString := ⟨"a".toList, by decide⟩

/-- Sample action that fails, with the offending character, when it meets an `l`, and
otherwise counts the call. -/
def failOnL (c : Char) (n : Nat) : Except Char Nat :=
  if c = 'l' then .error c else .ok (n + 1)

/-! ## Single passes through the loops -/

section Passes

variable {ε σ : Type} (act : Char → σ → Except ε σ)

theorem simpleForLoopStep_lt (T : CppString) (io : σ) (k : Nat) (hk : k < T.size) :
    simpleForLoopStep act ⟨k, ⟨T, io⟩⟩ =
      match act (T.data.get ⟨k, hk⟩) io with
      | .error e => .fail (.thrown e)
      | .ok cout' => .next ⟨k + 1, ⟨T, cout'⟩⟩ := by
  have hmod : (k + 1) % SIZE_MOD = k + 1 :=
    Nat.mod_eq_of_lt (Nat.lt_of_le_of_lt hk T.size_lt)
  have hget : T.data[k]? = some (T.data.get ⟨k, hk⟩) := by
    simp [List.getElem?_eq_getElem (show k < T.data.length from hk)]
  simp only [simpleForLoopStep, CppString.index, hk, if_true, hget, hmod]

theorem simpleForLoopStep_size (T : CppString) (io : σ) :
    simpleForLoopStep act ⟨T.size, ⟨T, io⟩⟩ = .halt ⟨T, io⟩ := by
  simp [simpleForLoopStep]

theorem usingIteratorStep_lt (T : CppString) (io : σ) (k : Nat) (hk : k < T.size) :
    usingIteratorStep act ⟨k, ⟨T, io⟩⟩ =
      match act (T.data.get ⟨k, hk⟩) io with
      | .error e => .fail (.thrown e)
      | .ok cout' => .next ⟨k + 1, ⟨T, cout'⟩⟩ := by
  have hne : (k != T.cend) = true := by
    simp only [CppString.cend, bne_iff_ne]; omega
  have hget : T.data[k]? = some (T.data.get ⟨k, hk⟩) := by
    simp [List.getElem?_eq_getElem (show k < T.data.length from hk)]
  simp only [usingIteratorStep, CppString.deref, hne, if_true, hget]

theorem usingIteratorStep_size (T : CppString) (io : σ) :
    usingIteratorStep act ⟨T.size, ⟨T, io⟩⟩ = .halt ⟨T, io⟩ := by
  simp [usingIteratorStep, CppString.cend]

theorem rangeBasedForLoopStep_lt (T : CppString) (io : σ) (k : Nat) (hk : k < T.size) :
    rangeBasedForLoopStep act ⟨k, T.size, ⟨T, io⟩⟩ =
      match act (T.data.get ⟨k, hk⟩) io with
      | .error e => .fail (.thrown e)
      | .ok cout' => .next ⟨k + 1, T.size, ⟨T, cout'⟩⟩ := by
  have hne : (k != T.size) = true := by
    simp only [bne_iff_ne]; omega
  have hget : T.data[k]? = some (T.data.get ⟨k, hk⟩) := by
    simp [List.getElem?_eq_getElem (show k < T.data.length from hk)]
  simp only [rangeBasedForLoopStep, CppString.deref, hne, if_true, hget]

theorem rangeBasedForLoopStep_size (T : CppString) (io : σ) :
    rangeBasedForLoopStep act ⟨T.size, T.size, ⟨T, io⟩⟩ = .halt ⟨T, io⟩ := by
  simp [rangeBasedForLoopStep]

theorem for_each_step_eq : for_each_step act = rangeBasedForLoopStep act := rfl

end Passes

/-! ## Whole loops -/

section Loops

variable {ε σ : Type} (act : Char → σ → Except ε σ)

/-- From any position inside the string, the iterator loop and the index loop agree for
every step budget. -/
theorem runLoop_usingIterator (T : CppString) :
    ∀ (fuel k : Nat) (io : σ), k ≤ T.size →
      runLoop (usingIteratorStep act) fuel ⟨k, ⟨T, io⟩⟩ =
        runLoop (simpleForLoopStep act) fuel ⟨k, ⟨T, io⟩⟩ := by
  intro fuel
  induction fuel with
  | zero =>
    intro k io hk
    rcases Nat.lt_or_eq_of_le hk with h | h
    · rw [runLoop, runLoop, usingIteratorStep_lt act T io k h, simpleForLoopStep_lt act T io k h]
      cases act (T.data.get ⟨k, h⟩) io <;> rfl
    · subst h
      rw [runLoop, runLoop, usingIteratorStep_size, simpleForLoopStep_size]
  | succ n ih =>
    intro k io hk
    rcases Nat.lt_or_eq_of_le hk with h | h
    · rw [runLoop, runLoop, usingIteratorStep_lt act T io k h, simpleForLoopStep_lt act T io k h]
      cases hact : act (T.data.get ⟨k, h⟩) io with
      | error e => rfl
      | ok io' => exact ih (k + 1) io' h
    · subst h
      rw [runLoop, runLoop, usingIteratorStep_size, simpleForLoopStep_size]

/-- From any position inside the string, the range-based loop and the index loop agree for
every step budget. -/
theorem runLoop_rangeBasedForLoop (T : CppString) :
    ∀ (fuel k : Nat) (io : σ), k ≤ T.size →
      runLoop (rangeBasedForLoopStep act) fuel ⟨k, T.size, ⟨T, io⟩⟩ =
        runLoop (simpleForLoopStep act) fuel ⟨k, ⟨T, io⟩⟩ := by
  intro fuel
  induction fuel with
  | zero =>
    intro k io hk
    rcases Nat.lt_or_eq_of_le hk with h | h
    · rw [runLoop, runLoop, rangeBasedForLoopStep_lt act T io k h,
        simpleForLoopStep_lt act T io k h]
      cases act (T.data.get ⟨k, h⟩) io <;> rfl
    · subst h
      rw [runLoop, runLoop, rangeBasedForLoopStep_size, simpleForLoopStep_size]
  | succ n ih =>
    intro k io hk
    rcases Nat.lt_or_eq_of_le hk with h | h
    · rw [runLoop, runLoop, rangeBasedForLoopStep_lt act T io k h,
        simpleForLoopStep_lt act T io k h]
      cases hact : act (T.data.get ⟨k, h⟩) io with
      | error e => rfl
      | ok io' => exact ih (k + 1) io' h
    · subst h
      rw [runLoop, runLoop, rangeBasedForLoopStep_size, simpleForLoopStep_size]

/-- With a budget that covers the characters still ahead, the index loop calls the action
on them one after the other, in order. -/
theorem runLoop_simpleForLoop (T : CppString) :
    ∀ (fuel k : Nat) (io : σ), k ≤ T.size → T.size - k ≤ fuel →
      runLoop (simpleForLoopStep act) fuel ⟨k, ⟨T, io⟩⟩ =
        returning T (List.foldlM (fun x c => act c x) io (T.data.drop k)) := by
  intro fuel
  induction fuel with
  | zero =>
    intro k io hk hfuel
    have h : k = T.size := by omega
    subst h
    rw [runLoop, simpleForLoopStep_size]
    simp [CppString.size, returning, pure, Except.pure]
  | succ n ih =>
    intro k io hk hfuel
    rcases Nat.lt_or_eq_of_le hk with h | h
    · rw [runLoop, simpleForLoopStep_lt act T io k h,
        List.drop_eq_getElem_cons (show k < T.data.length from h), List.foldlM_cons]
      cases hact : act (T.data.get ⟨k, h⟩) io with
      | error e =>
        have hact' : act T.data[k] io = .error e := hact
        simp [hact', returning, bind, Except.bind]
      | ok io' =>
        have hact' : act T.data[k] io = .ok io' := hact
        simp only [hact', bind, Except.bind]
        exact ih (k + 1) io' h (by omega)
    · subst h
      rw [runLoop, simpleForLoopStep_size]
      simp [CppString.size, returning, pure, Except.pure]

/-- The four loops agree for every action, string, state and step budget. -/
theorem traverse_eq_simpleForLoop (m : Mechanism) (fuel : Nat) (st : State σ) :
    traverse m act fuel st = simpleForLoop act fuel st := by
  obtain ⟨T, io⟩ := st
  cases m with
  | simpleForLoop => rfl
  | rangeBasedForLoop =>
    exact runLoop_rangeBasedForLoop act T fuel 0 io (Nat.zero_le _)
  | usingIterator =>
    exact runLoop_usingIterator act T fuel 0 io (Nat.zero_le _)
  | usingForEachAlgorithm =>
    exact runLoop_rangeBasedForLoop act T fuel 0 io (Nat.zero_le _)

/-- With a budget of at least `size()` bodies, every mechanism calls the action on the
characters of the string one after the other, in order. -/
theorem traverse_eq_foldlM (m : Mechanism) (fuel : Nat) (T : CppString) (io : σ)
    (hfuel : T.size ≤ fuel) :
    traverse m act fuel ⟨T, io⟩ = returning T (List.foldlM (fun x c => act c x) io T.data) := by
  rw [traverse_eq_simpleForLoop]
  exact runLoop_simpleForLoop act T fuel 0 io (Nat.zero_le _) (by omega)

end Loops

/-- Each `print...` function is its loop with the action `fn`. -/
theorem print_eq_traverse (m : Mechanism) (fuel : Nat) (st : State Ostream) :
    print m fuel st = traverse m fn fuel st := by
  cases m <;> rfl

/-- Calling `fn` on the characters of `l` in order appends each followed by a space. -/
theorem foldlM_fn (l : List Char) :
    ∀ out : Ostream, List.foldlM (fun x c => fn c x) out l =
      .ok (out ++ l.flatMap (fun c => [c, ' '])) := by
  induction l with
  | nil => intro out; simp [pure, Except.pure]
  | cons c cs ih =>
    intro out
    rw [List.foldlM_cons]
    simp only [fn, bind, Except.bind, Ostream.put]
    rw [show (fun x c => fn c x) = (fun (x : Ostream) c => (Except.ok ((x.put c).put ' ') : Except Empty Ostream)) from rfl] at ih
    simp only [Ostream.put] at ih
    rw [ih]
    simp

/-- With a budget of at least `size()` bodies, a `print...` function appends every
character of the string, each followed by one space, and returns. -/
theorem print_eq (m : Mechanism) (fuel : Nat) (T : CppString) (out : Ostream)
    (hfuel : T.size ≤ fuel) :
    print m fuel ⟨T, out⟩ = .ok ⟨T, out ++ T.data.flatMap (fun c => [c, ' '])⟩ := by
  rw [print_eq_traverse, traverse_eq_foldlM fn m fuel T out hfuel, foldlM_fn]
  rfl

/-! ## Observed actions -/

section Observed

variable {ε σ : Type} (act : Char → σ → Except ε σ)

/-- The log of a traced action grows by exactly the characters walked over. -/
theorem foldlM_traced (l : List Char) :
    ∀ (log : List Char) (io : σ),
      List.foldlM (fun x c => traced act c x) (log, io) l =
        match List.foldlM (fun x c => act c x) io l with
        | .error e => .error e
        | .ok y => .ok (log ++ l, y) := by
  induction l with
  | nil => intro log io; simp [pure, Except.pure]
  | cons c cs ih =>
    intro log io
    rw [List.foldlM_cons, List.foldlM_cons]
    cases hact : act c io with
    | error e => simp [traced, hact, bind, Except.bind]
    | ok y =>
      simp only [traced, hact, bind, Except.bind]
      have := ih (log ++ [c]) y
      simp only [traced] at this
      rw [this]
      simp

/-- The counter of a counted action grows by exactly the number of characters walked over. -/
theorem foldlM_counted (l : List Char) :
    ∀ (n : Nat) (io : σ),
      List.foldlM (fun x c => counted act c x) (n, io) l =
        match List.foldlM (fun x c => act c x) io l with
        | .error e => .error e
        | .ok y => .ok (n + l.length, y) := by
  induction l with
  | nil => intro n io; simp [pure, Except.pure]
  | cons c cs ih =>
    intro n io
    rw [List.foldlM_cons, List.foldlM_cons]
    cases hact : act c io with
    | error e => simp [counted, hact, bind, Except.bind]
    | ok y =>
      simp only [counted, hact, bind, Except.bind]
      have := ih (n + 1) y
      simp only [counted] at this
      rw [this]
      simp [Nat.add_assoc, Nat.add_comm 1]

/-- An action that fails on `c` after succeeding on everything before it makes the whole
sequence of calls fail with the same error. -/
theorem foldlM_error (pre post : List Char) (c : Char) (io io1 : σ) (e : ε)
    (hpre : List.foldlM (fun x ch => act ch x) io pre = .ok io1) (hc : act c io1 = .error e) :
    List.foldlM (fun x ch => act ch x) io (pre ++ c :: post) = .error e := by
  rw [List.foldlM_append, hpre]
  show List.foldlM (fun x ch => act ch x) io1 (c :: post) = .error e
  rw [List.foldlM_cons, hc]
  rfl

/-- An action that never fails can be called on every character. -/
theorem foldlM_total (htotal : ∀ c x, ∃ y, act c x = .ok y) (l : List Char) :
    ∀ io : σ, ∃ y, List.foldlM (fun x c => act c x) io l = .ok y := by
  induction l with
  | nil => intro io; exact ⟨io, rfl⟩
  | cons c cs ih =>
    intro io
    obtain ⟨y, hy⟩ := htotal c io
    obtain ⟨z, hz⟩ := ih y
    refine ⟨z, ?_⟩
    rw [List.foldlM_cons, hy]
    simpa [bind, Except.bind] using hz

end Observed

/-! ## Reachable cursors of the index loop -/

section Cursors

variable {ε σ : Type} (act : Char → σ → Except ε σ)

/-- A loop that returns within `fuel` bodies is no longer running after `fuel + 1` passes. -/
theorem cursorAfter_of_runLoop {κ ρ : Type} (step : κ → Step ε κ ρ) :
    ∀ (fuel : Nat) (c : κ) (r : ρ), runLoop step fuel c = .ok r →
      ∀ n, fuel < n → cursorAfter step n c = none := by
  intro fuel
  induction fuel with
  | zero =>
    intro c r h n hn
    obtain ⟨n, rfl⟩ : ∃ n', n = n' + 1 := ⟨n - 1, by omega⟩
    rw [runLoop] at h
    rw [cursorAfter]
    cases hs : step c with
    | next c' => rw [hs] at h; cases h
    | halt r' => rfl
    | fail f => rfl
  | succ m ih =>
    intro c r h n hn
    obtain ⟨n, rfl⟩ : ∃ n', n = n' + 1 := ⟨n - 1, by omega⟩
    rw [runLoop] at h
    rw [cursorAfter]
    cases hs : step c with
    | next c' =>
      rw [hs] at h
      exact ih c' r h n (by omega)
    | halt r' => rfl
    | fail f => rfl

/-- Every cursor the index loop reaches from a position inside the string is again inside
the string (or at its end), and the string has not changed. -/
theorem cursorAfter_simpleForLoop (T : CppString) :
    ∀ (n k : Nat) (io : σ) (c : IndexCursor σ), k ≤ T.size →
      cursorAfter (simpleForLoopStep act) n ⟨k, ⟨T, io⟩⟩ = some c →
      c.i ≤ T.size ∧ c.st.s = T := by
  intro n
  induction n with
  | zero =>
    intro k io c hk h
    rw [cursorAfter] at h
    cases h
    exact ⟨hk, rfl⟩
  | succ m ih =>
    intro k io c hk h
    rcases Nat.lt_or_eq_of_le hk with hlt | heq
    · rw [cursorAfter, simpleForLoopStep_lt act T io k hlt] at h
      cases hact : act (T.data.get ⟨k, hlt⟩) io with
      | error e => rw [hact] at h; cases h
      | ok y =>
        rw [hact] at h
        exact ih (k + 1) y c hlt h
    · subst heq
      rw [cursorAfter, simpleForLoopStep_size] at h
      cases h

/-- The index loop never reads outside the string, whatever the step budget. -/
theorem runLoop_simpleForLoop_inRange (T : CppString) :
    ∀ (fuel k : Nat) (io : σ), k ≤ T.size →
      runLoop (simpleForLoopStep act) fuel ⟨k, ⟨T, io⟩⟩ ≠ .error .outOfRange := by
  intro fuel
  induction fuel with
  | zero =>
    intro k io hk
    rcases Nat.lt_or_eq_of_le hk with hlt | heq
    · rw [runLoop, simpleForLoopStep_lt act T io k hlt]
      cases act (T.data.get ⟨k, hlt⟩) io <;> simp
    · subst heq
      rw [runLoop, simpleForLoopStep_size]
      simp
  | succ m ih =>
    intro k io hk
    rcases Nat.lt_or_eq_of_le hk with hlt | heq
    · rw [runLoop, simpleForLoopStep_lt act T io k hlt]
      cases hact : act (T.data.get ⟨k, hlt⟩) io with
      | error e => simp
      | ok y => exact ih (k + 1) y hlt
    · subst heq
      rw [runLoop, simpleForLoopStep_size]
      simp

/-- A pass of the index loop that goes round again has read a character inside the string
and moved the counter up by one, without wrap-around. -/
theorem simpleForLoopStep_next (c c' : IndexCursor σ)
    (h : simpleForLoopStep act c = .next c') :
    c.i < c.st.s.size ∧ c'.i = c.i + 1 ∧ c'.st.s = c.st.s := by
  unfold simpleForLoopStep at h
  by_cases hlt : c.i < c.st.s.size
  · have hmod : (c.i + 1) % SIZE_MOD = c.i + 1 :=
      Nat.mod_eq_of_lt (Nat.lt_of_le_of_lt hlt c.st.s.size_lt)
    rw [if_pos hlt] at h
    cases hidx : c.st.s.index c.i with
    | none => rw [hidx] at h; cases h
    | some ch =>
      rw [hidx] at h
      dsimp only at h
      cases hact : act ch c.st.cout with
      | error e => rw [hact] at h; cases h
      | ok y =>
        rw [hact] at h
        simp only [Step.next.injEq] at h
        subst h
        exact ⟨hlt, hmod, rfl⟩
  · rw [if_neg hlt] at h
    cases h

/-- A pass of the iterator loop that goes round again has read a character inside the
string and moved the iterator forward by one. -/
theorem usingIteratorStep_next (c c' : IterCursor σ)
    (h : usingIteratorStep act c = .next c') :
    c.it < c.st.s.cend ∧ c'.it = c.it + 1 ∧ c'.st.s = c.st.s := by
  unfold usingIteratorStep at h
  by_cases hne : (c.it != c.st.s.cend) = true
  · rw [if_pos hne] at h
    cases hidx : c.st.s.deref c.it with
    | none => rw [hidx] at h; cases h
    | some ch =>
      rw [hidx] at h
      dsimp only at h
      have hlt : c.it < c.st.s.cend := by
        unfold CppString.deref at hidx
        have := (List.getElem?_eq_some_iff.mp hidx).1
        exact this
      cases hact : act ch c.st.cout with
      | error e => rw [hact] at h; cases h
      | ok y =>
        rw [hact] at h
        simp only [Step.next.injEq] at h
        subst h
        exact ⟨hlt, rfl, rfl⟩
  · rw [if_neg hne] at h
    cases h

end Cursors

/-! ## The claims -/

/-- C1: in each of the four traversal functions the characters handed to the visiting
action (the write of the character and a space) are the characters of the text from index 0
to the last index, in that order, none left out and none repeated: each `print...` function
is its loop with the action `fn`, and that loop, run with `fn` logging its argument, extends
the log by exactly the text. -/
theorem visits_text_in_order (m : Mechanism) (T : CppString) (log : List Char) (out : Ostream)
    (fuel : Nat) (hfuel : T.size ≤ fuel) :
    print m fuel ⟨T, out⟩ = traverse m fn fuel ⟨T, out⟩ ∧
    traverse m (traced fn) fuel ⟨T, (log, out)⟩ =
      .ok ⟨T, (log ++ T.data, out ++ T.data.flatMap (fun c => [c, ' ']))⟩ := by
  refine ⟨print_eq_traverse m fuel ⟨T, out⟩, ?_⟩
  rw [traverse_eq_foldlM (traced fn) m fuel T (log, out) hfuel, foldlM_traced, foldlM_fn]
  rfl

theorem visits_text_in_order_witness :
    hello.size ≤ 5 ∧
    traverse .usingIterator (traced fn) 5 ⟨hello, ([], [])⟩ =
      .ok ⟨hello, (['h', 'e', 'l', 'l', 'o'], "h e l l o ".toList)⟩ :=
  ⟨by decide, (visits_text_in_order .usingIterator hello [] [] 5 (by decide)).2⟩

/-- C2: each of the four traversal functions calls the visiting action exactly `length(T)`
times; on the empty text the action is not called, nothing is written, and the call returns
normally, whatever the step budget. -/
theorem action_called_length_times (m : Mechanism) (T : CppString) (n : Nat) (out : Ostream)
    (fuel : Nat) (hfuel : T.size ≤ fuel) :
    traverse m (counted fn) fuel ⟨T, (n, out)⟩ =
      .ok ⟨T, (n + T.size, out ++ T.data.flatMap (fun c => [c, ' ']))⟩ ∧
    (∀ f : Nat, traverse m (counted fn) f ⟨emptyText, (n, out)⟩ = .ok ⟨emptyText, (n, out)⟩ ∧
      print m f ⟨emptyText, out⟩ = .ok ⟨emptyText, out⟩) := by
  refine ⟨?_, fun f => ⟨?_, ?_⟩⟩
  · rw [traverse_eq_foldlM (counted fn) m fuel T (n, out) hfuel, foldlM_counted, foldlM_fn]
    rfl
  · rw [traverse_eq_foldlM (counted fn) m f emptyText (n, out) (Nat.zero_le f)]
    rfl
  · rw [print_eq m f emptyText out (Nat.zero_le f)]
    simp [emptyText]

theorem action_called_length_times_witness :
    hello.size ≤ 5 ∧
    traverse .simpleForLoop (counted fn) 5 ⟨hello, (0, [])⟩ =
      .ok ⟨hello, (5, "h e l l o ".toList)⟩ :=
  ⟨by decide, (action_called_length_times .simpleForLoop hello 0 [] 5 (by decide)).1⟩

/-- C3: the four traversal functions are interchangeable: for every action, text, state and
step budget any two of the loops give the same result, so any two `print...` functions write
the same output and hand the same sequence of characters to the action. -/
theorem mechanisms_equivalent {ε σ : Type} (m₁ m₂ : Mechanism) (act : Char → σ → Except ε σ)
    (fuel : Nat) (st : State σ) (T : CppString) (log : List Char) (out : Ostream) :
    traverse m₁ act fuel st = traverse m₂ act fuel st ∧
    print m₁ fuel ⟨T, out⟩ = print m₂ fuel ⟨T, out⟩ ∧
    traverse m₁ (traced fn) fuel ⟨T, (log, out)⟩ =
      traverse m₂ (traced fn) fuel ⟨T, (log, out)⟩ := by
  refine ⟨?_, ?_, ?_⟩
  · rw [traverse_eq_simpleForLoop act m₁, traverse_eq_simpleForLoop act m₂]
  · rw [print_eq_traverse, print_eq_traverse, traverse_eq_simpleForLoop fn m₁,
      traverse_eq_simpleForLoop fn m₂]
  · rw [traverse_eq_simpleForLoop (traced fn) m₁, traverse_eq_simpleForLoop (traced fn) m₂]

/-- C4: each of the four traversal functions writes exactly the characters of the text in
order, each followed by exactly one space, and nothing else; for `"hello"` that is
`"h e l l o "` and for `"a"` it is `"a "`. -/
theorem output_is_spaced_text (m : Mechanism) (T : CppString) (out : Ostream) (fuel : Nat)
    (hfuel : T.size ≤ fuel) :
    print m fuel ⟨T, out⟩ = .ok ⟨T, out ++ T.data.flatMap (fun c => [c, ' '])⟩ ∧
    print m 5 ⟨hello, []⟩ = .ok ⟨hello, "h e l l o ".toList⟩ ∧
    print m 1 ⟨textA, []⟩ = .ok ⟨textA, "a ".toList⟩ := by
  refine ⟨print_eq m fuel T out hfuel, ?_, ?_⟩
  · rw [print_eq m 5 hello [] (by decide)]
    rfl
  · rw [print_eq m 1 textA [] (by decide)]
    rfl

theorem output_is_spaced_text_witness :
    textA.size ≤ 3 ∧
    print .rangeBasedForLoop 3 ⟨textA, ['x']⟩ = .ok ⟨textA, ['x', 'a', ' ']⟩ :=
  ⟨by decide, (output_is_spaced_text .rangeBasedForLoop textA ['x'] 3 (by decide)).1⟩

/-- C5: a traversal leaves the text as it was: the string handed back by each of the four
traversal functions is the string it was given (and this holds for the loops with any
action). -/
theorem text_unchanged {ε σ : Type} (m : Mechanism) (act : Char → σ → Except ε σ)
    (T : CppString) (io : σ) (out : Ostream) (fuel : Nat) (hfuel : T.size ≤ fuel) :
    (∃ st', print m fuel ⟨T, out⟩ = .ok st' ∧ st'.s = T ∧ st'.s.data = T.data) ∧
    (∀ st', traverse m act fuel ⟨T, io⟩ = .ok st' → st'.s = T) := by
  refine ⟨⟨_, print_eq m fuel T out hfuel, rfl, rfl⟩, ?_⟩
  intro st' h
  rw [traverse_eq_foldlM act m fuel T io hfuel] at h
  cases hr : List.foldlM (fun x c => act c x) io T.data with
  | error e => rw [hr] at h; cases h
  | ok y =>
    rw [hr] at h
    simp only [returning, Except.ok.injEq] at h
    rw [← h]

theorem text_unchanged_witness :
    hello.size ≤ 7 ∧
    ∃ st', print .usingForEachAlgorithm 7 ⟨hello, []⟩ = .ok st' ∧ st'.s = hello ∧
      st'.s.data = hello.data :=
  ⟨by decide, (text_unchanged .usingForEachAlgorithm fn hello [] [] 7 (by decide)).1⟩

/-- C6: a failure of the visiting action reaches the caller of the traversal as that same
failure: if the action succeeds on the characters before `c` and fails with `e` on `c`, each
of the four loops stops with `e`, neither translated nor recovered from; and with an action
that never fails each of the four loops returns normally. -/
theorem action_failure_propagates {ε σ : Type} (m : Mechanism) (act : Char → σ → Except ε σ)
    (T : CppString) (io : σ) (fuel : Nat) (hfuel : T.size ≤ fuel) :
    (∀ (pre post : List Char) (c : Char) (io₁ : σ) (e : ε),
      T.data = pre ++ c :: post →
      List.foldlM (fun x ch => act ch x) io pre = .ok io₁ →
      act c io₁ = .error e →
      traverse m act fuel ⟨T, io⟩ = .error (.thrown e)) ∧
    ((∀ c x, ∃ y, act c x = .ok y) → ∃ io', traverse m act fuel ⟨T, io⟩ = .ok ⟨T, io'⟩) := by
  refine ⟨?_, ?_⟩
  · intro pre post c io₁ e hT hpre hc
    rw [traverse_eq_foldlM act m fuel T io hfuel, hT, foldlM_error act pre post c io io₁ e hpre hc]
    rfl
  · intro htotal
    obtain ⟨y, hy⟩ := foldlM_total act htotal T.data io
    exact ⟨y, by rw [traverse_eq_foldlM act m fuel T io hfuel, hy]; rfl⟩

theorem action_failure_propagates_witness :
    hello.size ≤ 5 ∧
    traverse .usingForEachAlgorithm failOnL 5 ⟨hello, 0⟩ = .error (.thrown 'l') :=
  ⟨by decide,
    (action_failure_propagates .usingForEachAlgorithm failOnL hello 0 5 (by decide)).1
      ['h', 'e'] ['l', 'o'] 'l' 2 'l' rfl rfl rfl⟩

/-- C7: a traversal call depends only on its own text: running one on `T1` and then one on
`T2`, with any two mechanisms, appends to the output the rendering of `T1` followed by the
rendering of `T2`, and that second rendering is what the call on `T2` appends when run on
its own, from any output. -/
theorem calls_are_independent (m₁ m₂ : Mechanism) (T₁ T₂ : CppString) (out : Ostream)
    (fuel₁ fuel₂ : Nat) (h₁ : T₁.size ≤ fuel₁) (h₂ : T₂.size ≤ fuel₂) :
    (print m₁ fuel₁ ⟨T₁, out⟩ >>= fun st₁ => print m₂ fuel₂ ⟨T₂, st₁.cout⟩) =
      .ok ⟨T₂, out ++ T₁.data.flatMap (fun c => [c, ' ']) ++
        T₂.data.flatMap (fun c => [c, ' '])⟩ ∧
    (∀ out₀ : Ostream,
      print m₂ fuel₂ ⟨T₂, out₀⟩ = .ok ⟨T₂, out₀ ++ T₂.data.flatMap (fun c => [c, ' '])⟩) := by
  refine ⟨?_, fun out₀ => print_eq m₂ fuel₂ T₂ out₀ h₂⟩
  rw [print_eq m₁ fuel₁ T₁ out h₁]
  exact print_eq m₂ fuel₂ T₂ _ h₂

theorem calls_are_independent_witness :
    (hello.size ≤ 5 ∧ textA.size ≤ 1) ∧
    (print .simpleForLoop 5 ⟨hello, []⟩ >>= fun st₁ =>
        print .usingIterator 1 ⟨textA, st₁.cout⟩) =
      .ok ⟨textA, "h e l l o a ".toList⟩ :=
  ⟨⟨by decide, by decide⟩,
    (calls_are_independent .simpleForLoop .usingIterator hello textA [] 5 1
      (by decide) (by decide)).1⟩

/-- C8: `main` returns 0 and writes a line of 24 `*`, then four times `"h e l l o "`, a
newline and a line of 24 `*`, every line of `*` ending in a newline. -/
theorem main_output (fuel : Nat) (hfuel : 5 ≤ fuel) :
    main fuel =
      .ok (0, List.replicate 24 '*' ++ [Char.ofNat 10] ++
        (List.replicate 4
          ("h e l l o ".toList ++ [Char.ofNat 10] ++ List.replicate 24 '*' ++
            [Char.ofNat 10])).flatten) := by
  have hp : ∀ (m : Mechanism) (out : Ostream),
      print m fuel ⟨hello, out⟩ = .ok ⟨hello, out ++ "h e l l o ".toList⟩ :=
    fun m out => print_eq m fuel hello out hfuel
  have h1 : ∀ out, printSimpleForLoop fuel ⟨hello, out⟩ = _ := hp .simpleForLoop
  have h2 : ∀ out, printRangeBasedForLoop fuel ⟨hello, out⟩ = _ := hp .rangeBasedForLoop
  have h3 : ∀ out, printUsingIterator fuel ⟨hello, out⟩ = _ := hp .usingIterator
  have h4 : ∀ out, printUsingForEachAlgorithm fuel ⟨hello, out⟩ = _ := hp .usingForEachAlgorithm
  simp only [main, h1, h2, h3, h4, bind, Except.bind, pure, Except.pure]
  rfl

theorem main_output_witness :
    (5 : Nat) ≤ 5 ∧
    main 5 =
      .ok (0, ("************************\nh e l l o \n************************\nh e l l o " ++
        "\n************************\nh e l l o \n************************\nh e l l o " ++
        "\n************************\n").toList) :=
  ⟨by decide, main_output 5 (by decide)⟩

/-- C9: each of the four traversal functions terminates within `length(T)` loop bodies: a
budget of `length(T)` is enough to return, none of the four loops is still running after
more than `length(T)` passes, and every pass that goes round again strictly decreases
`size - i` in the index loop and the distance to the end in the iterator loop. -/
theorem traversal_terminates (m : Mechanism) (T : CppString) (out : Ostream) (fuel : Nat)
    (hfuel : T.size ≤ fuel) :
    (∃ st', print m fuel ⟨T, out⟩ = .ok st') ∧
    (∀ n, T.size < n →
      cursorAfter (simpleForLoopStep fn) n ⟨0, ⟨T, out⟩⟩ = none ∧
      cursorAfter (rangeBasedForLoopStep fn) n ⟨T.begin, T.end_, ⟨T, out⟩⟩ = none ∧
      cursorAfter (usingIteratorStep fn) n ⟨T.cbegin, ⟨T, out⟩⟩ = none ∧
      cursorAfter (for_each_step fn) n ⟨T.begin, T.end_, ⟨T, out⟩⟩ = none) ∧
    (∀ c c' : IndexCursor Ostream, simpleForLoopStep fn c = .next c' →
      c'.st.s.size - c'.i < c.st.s.size - c.i) ∧
    (∀ c c' : IterCursor Ostream, usingIteratorStep fn c = .next c' →
      c'.st.s.cend - c'.it < c.st.s.cend - c.it) := by
  have hret : ∀ m' : Mechanism, traverse m' fn T.size ⟨T, out⟩ =
      .ok ⟨T, out ++ T.data.flatMap (fun c => [c, ' '])⟩ := by
    intro m'
    rw [← print_eq_traverse]
    exact print_eq m' T.size T out (Nat.le_refl _)
  refine ⟨⟨_, print_eq m fuel T out hfuel⟩, ?_, ?_, ?_⟩
  · intro n hn
    exact ⟨cursorAfter_of_runLoop _ _ _ _ (hret .simpleForLoop) n hn,
      cursorAfter_of_runLoop _ _ _ _ (hret .rangeBasedForLoop) n hn,
      cursorAfter_of_runLoop _ _ _ _ (hret .usingIterator) n hn,
      cursorAfter_of_runLoop _ _ _ _ (hret .usingForEachAlgorithm) n hn⟩
  · intro c c' h
    obtain ⟨hlt, hi, hs⟩ := simpleForLoopStep_next fn c c' h
    rw [hi, hs]
    omega
  · intro c c' h
    obtain ⟨hlt, hi, hs⟩ := usingIteratorStep_next fn c c' h
    rw [hi, hs]
    omega

theorem traversal_terminates_witness :
    hello.size ≤ 5 ∧
    (∃ st', print .usingIterator 5 ⟨hello, []⟩ = .ok st') ∧
    cursorAfter (simpleForLoopStep fn) 6 ⟨0, ⟨hello, []⟩⟩ = none :=
  ⟨by decide, (traversal_terminates .usingIterator hello [] 5 (by decide)).1,
    ((traversal_terminates .usingIterator hello [] 5 (by decide)).2.1 6 (by decide)).1⟩

/-- C10: in the index loop of `printSimpleForLoop` the counter never goes past `s.size()`
and the string stays the same; whenever the body runs, the index it reads is that of a
character (the lookup is not `none`) and the increment does not wrap around; so no run of
the loop, whatever its step budget, ends in an out-of-range read. -/
theorem index_always_in_bounds {ε σ : Type} (act : Char → σ → Except ε σ) (T : CppString)
    (io : σ) (out : Ostream) (n : Nat) (c : IndexCursor σ)
    (hreach : cursorAfter (simpleForLoopStep act) n ⟨0, ⟨T, io⟩⟩ = some c) :
    c.i ≤ T.size ∧ c.st.s = T ∧
    (c.i < T.size → (∃ ch, c.st.s.index c.i = some ch) ∧ (c.i + 1) % SIZE_MOD = c.i + 1) ∧
    (∀ fuel, simpleForLoop act fuel ⟨T, io⟩ ≠ .error .outOfRange) ∧
    (∀ fuel, printSimpleForLoop fuel ⟨T, out⟩ ≠ .error .outOfRange) := by
  obtain ⟨hle, hs⟩ := cursorAfter_simpleForLoop act T n 0 io c (Nat.zero_le _) hreach
  refine ⟨hle, hs, ?_, ?_, ?_⟩
  · intro hlt
    refine ⟨⟨T.data.get ⟨c.i, hlt⟩, ?_⟩, Nat.mod_eq_of_lt (Nat.lt_of_le_of_lt hlt T.size_lt)⟩
    rw [hs]
    simp [CppString.index, List.getElem?_eq_getElem (show c.i < T.data.length from hlt)]
  · intro fuel
    exact runLoop_simpleForLoop_inRange act T fuel 0 io (Nat.zero_le _)
  · intro fuel
    exact runLoop_simpleForLoop_inRange _ T fuel 0 out (Nat.zero_le _)

theorem index_always_in_bounds_witness :
    cursorAfter (simpleForLoopStep fn) 2 ⟨0, ⟨hello, []⟩⟩ = some ⟨2, ⟨hello, "h e ".toList⟩⟩ ∧
    2 ≤ hello.size ∧ (2 + 1) % SIZE_MOD = 2 + 1 ∧
    printSimpleForLoop 1 ⟨hello, []⟩ ≠ .error .outOfRange :=
  ⟨rfl,
    (index_always_in_bounds fn hello [] [] 2 ⟨2, ⟨hello, "h e ".toList⟩⟩ rfl).1,
    ((index_always_in_bounds fn hello [] [] 2 ⟨2, ⟨hello, "h e ".toList⟩⟩ rfl).2.2.1
      (by decide)).2,
    (index_always_in_bounds fn hello [] [] 2 ⟨2, ⟨hello, "h e ".toList⟩⟩ rfl).2.2.2.2 1⟩

end IteratingOverCharsInString
